import Mathlib

/-!
Verification of the Dou Dizhu (Landlord) card-game core: a shallow embedding
of the card model, the play validator `isValidPlay`, the bot policy
`getBotMove`, deck construction (`createDeck`, `shuffleDeck`) and the host
transition functions `processPlay` / `handleGameOver`, together with theorems
settling the stated properties of each component.
-/

/-- Suit of a card; `Suit.None` is the jokers' suit (empty string in the source). -/
inductive Suit where
  | Hearts
  | Diamonds
  | Clubs
  | Spades
  | None
deriving DecidableEq

/-- A playing card: `id` is the unique identity string, `rank` the numeric
rank (3..15 for normal ranks, 16/17 for the jokers), `value` the comparison
value used to order plays. -/
structure Card where
  id : String
  suit : Suit
  rank : Nat
  label : String
  value : Nat
deriving DecidableEq

/-- Value of the first card of a list (the source indexes `l[0].value`; all
uses are guarded so the list is nonempty; 0 is a dummy for the empty case). -/
def headVal : List Card → Nat
  | [] => 0
  | c :: _ => c.value

/-- Value of the second card of a list (the source indexes `l[1].value`). -/
def secondVal : List Card → Nat
  | _ :: c :: _ => c.value
  | _ => 0

/-- Uniformity check of the source: `l.every(c => c.value === l[0].value)`. -/
def allSameVal (l : List Card) : Bool :=
  l.all (fun c => c.value == headVal l)

/-- Whether a card is a wildcard (Laizi): its rank equals the wildcard rank
(`c.rank === laiziRank` in the source; always false when the rank is null). -/
def isLaiziCard (laiziRank : Option Nat) (c : Card) : Bool :=
  match laiziRank with
  | some rk => c.rank == rk
  | none => false

/-- The wildcard-rank cards of a play: `cards.filter(c => c.rank === laiziRank)`. -/
def laizisOf (cards : List Card) (laiziRank : Option Nat) : List Card :=
  cards.filter (isLaiziCard laiziRank)

/-- The non-wildcard cards of a play: `cards.filter(c => c.rank !== laiziRank)`. -/
def normalsOf (cards : List Card) (laiziRank : Option Nat) : List Card :=
  cards.filter (fun c => !(isLaiziCard laiziRank c))

/-- Wildcard resolution of `isValidPlay`: when the play has both wildcards and
normal cards and the normal cards share one value, every wildcard's value is
morphed to that shared value; otherwise the cards are left as given. -/
def effectiveCards (cards : List Card) (laiziRank : Option Nat) : List Card :=
  if 0 < (laizisOf cards laiziRank).length ∧ 0 < (normalsOf cards laiziRank).length then
    if allSameVal (normalsOf cards laiziRank) then
      cards.map (fun c =>
        if isLaiziCard laiziRank c then
          { c with value := headVal (normalsOf cards laiziRank) }
        else c)
    else cards
  else cards

/-- Rocket test of the source: exactly two cards, both of value at least 16.
It is applied to the raw cards, never to the wildcard-resolved ones. -/
def isRocketOf (l : List Card) : Bool :=
  (l.length == 2) && (decide (16 ≤ headVal l)) && (decide (16 ≤ secondVal l))

/-- Bomb test on a previous play: four cards sharing one value (raw values). -/
def lastIsBombOf (l : List Card) : Bool :=
  (l.length == 4) && allSameVal l

/-- Bomb test on the proposed play: the wildcard-resolved cards are four cards
sharing one value (soft and hard bombs are treated alike in the source). -/
def isBombOf (cards : List Card) (laiziRank : Option Nat) : Bool :=
  ((effectiveCards cards laiziRank).length == 4) && allSameVal (effectiveCards cards laiziRank)

/-- The play validator, translated from `isValidPlay` of the source: rejects
empty plays, resolves wildcards, then either checks a lead (rocket or uniform
set) or compares against the previous play (rocket, bomb, then same-length
uniform set of strictly greater value). -/
def isValidPlay (cards lastCards : List Card) (laiziRank : Option Nat) : Bool :=
  if cards.length == 0 then false
  else
    let eff := effectiveCards cards laiziRank
    if lastCards.length == 0 then
      isRocketOf cards || allSameVal eff
    else
      if isRocketOf cards then true
      else if isRocketOf lastCards then false
      else if isBombOf cards laiziRank then
        (if !(lastIsBombOf lastCards) then true
         else decide (headVal lastCards < headVal eff))
      else if lastIsBombOf lastCards then false
      else if cards.length != lastCards.length then false
      else allSameVal eff && decide (headVal lastCards < headVal eff)

/-- A throwaway card used only in sanity examples and witnesses. -/
def mkCard (i rk v : Nat) : Card :=
  { id := "t-" ++ toString i, suit := Suit.Spades, rank := rk, label := "", value := v }

example : isValidPlay [mkCard 0 3 3, mkCard 1 3 3, mkCard 2 5 5] [] (some 5) = true := by decide
example : isValidPlay [mkCard 0 13 13, mkCard 1 13 13]
    [mkCard 2 15 15, mkCard 3 15 15] none = false := by decide
example : isValidPlay [mkCard 0 4 4, mkCard 1 4 4]
    [mkCard 2 3 3, mkCard 3 5 5] none = true := by decide
example : isValidPlay [mkCard 0 4 4, mkCard 1 4 4]
    [mkCard 3 5 5, mkCard 2 3 3] none = false := by decide

/-- Uniformity is the pairwise equality of all card values in the list. -/
theorem allSameVal_iff (l : List Card) :
    allSameVal l = true ↔ ∀ x ∈ l, ∀ y ∈ l, x.value = y.value := by
  cases l with
  | nil => simp [allSameVal]
  | cons c t =>
    simp only [allSameVal, headVal, List.all_eq_true, beq_iff_eq]
    constructor
    · intro h x hx y hy
      rw [h x hx, h y hy]
    · intro h x hx
      exact h x hx c (List.mem_cons_self c t)

/-- Uniformity is invariant under permutation. -/
theorem allSameVal_of_perm {l m : List Card} (h : l.Perm m) :
    allSameVal l = allSameVal m := by
  have hiff : allSameVal l = true ↔ allSameVal m = true := by
    rw [allSameVal_iff, allSameVal_iff]
    constructor
    · intro hall x hx y hy
      exact hall x (h.mem_iff.mpr hx) y (h.mem_iff.mpr hy)
    · intro hall x hx y hy
      exact hall x (h.mem_iff.mp hx) y (h.mem_iff.mp hy)
  cases ha : allSameVal l <;> cases hb : allSameVal m <;> simp_all

/-- In a uniform list every member carries the head value. -/
theorem value_eq_headVal_of_allSame {l : List Card} (h : allSameVal l = true)
    {x : Card} (hx : x ∈ l) : x.value = headVal l := by
  cases l with
  | nil => cases hx
  | cons c t =>
    rw [allSameVal_iff] at h
    exact h x hx c (List.mem_cons_self c t)

/-- Permuting a uniform list keeps its head value. -/
theorem headVal_eq_of_perm_allSame {l m : List Card} (hp : l.Perm m)
    (h : allSameVal l = true) : headVal l = headVal m := by
  cases hm : m with
  | nil =>
    have : l = [] := by
      subst hm
      exact hp.eq_nil
    rw [this]
  | cons c t =>
    have hc : c ∈ l := hp.mem_iff.mpr (by rw [hm]; exact List.mem_cons_self c t)
    exact (value_eq_headVal_of_allSame h hc).symm

/-- The boolean all-test is invariant under permutation. -/
theorem all_eq_of_perm {l m : List Card} (p : Card → Bool) (h : l.Perm m) :
    l.all p = m.all p := by
  cases hb : m.all p
  · cases ha : l.all p
    · rfl
    · rw [List.all_eq_true] at ha
      have hth : m.all p = true :=
        List.all_eq_true.mpr (fun x hx => ha x (h.mem_iff.mpr hx))
      rw [hb] at hth
      cases hth
  · exact List.all_eq_true.mpr
      (fun x hx => (List.all_eq_true.mp hb) x (h.mem_iff.mp hx))

/-- Wildcard resolution never changes the number of cards. -/
theorem effectiveCards_length (cards : List Card) (r : Option Nat) :
    (effectiveCards cards r).length = cards.length := by
  unfold effectiveCards
  split
  · split
    · simp
    · rfl
  · rfl

/-- Wildcard resolution maps permuted plays to permuted resolved plays. -/
theorem effectiveCards_perm {cards cs : List Card} (r : Option Nat)
    (h : cards.Perm cs) : (effectiveCards cards r).Perm (effectiveCards cs r) := by
  have hl : (laizisOf cards r).Perm (laizisOf cs r) := h.filter _
  have hn : (normalsOf cards r).Perm (normalsOf cs r) := h.filter _
  have hlen1 : (laizisOf cards r).length = (laizisOf cs r).length := hl.length_eq
  have hlen2 : (normalsOf cards r).length = (normalsOf cs r).length := hn.length_eq
  have hs : allSameVal (normalsOf cards r) = allSameVal (normalsOf cs r) :=
    allSameVal_of_perm hn
  unfold effectiveCards
  by_cases h1 : 0 < (laizisOf cards r).length ∧ 0 < (normalsOf cards r).length
  · have h1b : 0 < (laizisOf cs r).length ∧ 0 < (normalsOf cs r).length := by
      rw [← hlen1, ← hlen2]
      exact h1
    rw [if_pos h1, if_pos h1b]
    by_cases h2 : allSameVal (normalsOf cards r) = true
    · have h2b : allSameVal (normalsOf cs r) = true := by rw [← hs]; exact h2
      rw [if_pos h2, if_pos h2b, ← headVal_eq_of_perm_allSame hn h2]
      exact h.map _
    · have h2b : ¬ allSameVal (normalsOf cs r) = true := by rw [← hs]; exact h2
      rw [if_neg h2, if_neg h2b]
      exact h
  · have h1b : ¬ (0 < (laizisOf cs r).length ∧ 0 < (normalsOf cs r).length) := by
      rw [← hlen1, ← hlen2]
      exact h1
    rw [if_neg h1, if_neg h1b]
    exact h

/-- The rocket test equals the symmetric form: two cards, all valued 16 or more. -/
theorem isRocketOf_eq_all (l : List Card) :
    isRocketOf l = ((l.length == 2) && l.all (fun c => decide (16 ≤ c.value))) := by
  match l with
  | [] => rfl
  | [a] => rfl
  | [a, b] => simp [isRocketOf, headVal, secondVal, Bool.and_assoc]
  | a :: b :: c :: t =>
    have h2 : ((a :: b :: c :: t).length == 2) = false := by
      simp [List.length_cons]
    simp [isRocketOf, h2]

/-- The rocket test is invariant under permutation. -/
theorem isRocketOf_of_perm {l m : List Card} (h : l.Perm m) :
    isRocketOf l = isRocketOf m := by
  rw [isRocketOf_eq_all, isRocketOf_eq_all, h.length_eq, all_eq_of_perm _ h]

/-- The bomb test on the previous play is invariant under permutation. -/
theorem lastIsBombOf_of_perm {l m : List Card} (h : l.Perm m) :
    lastIsBombOf l = lastIsBombOf m := by
  unfold lastIsBombOf
  rw [h.length_eq, allSameVal_of_perm h]

/-- A rocket has exactly two cards. -/
theorem length_eq_two_of_isRocket {l : List Card} (h : isRocketOf l = true) :
    l.length = 2 := by
  unfold isRocketOf at h
  rw [Bool.and_eq_true, Bool.and_eq_true] at h
  exact beq_iff_eq.mp h.1.1

/-- A list that is not two cards long is not a rocket. -/
theorem isRocketOf_false_of_length_ne {l : List Card} (h : l.length ≠ 2) :
    isRocketOf l = false := by
  cases hb : isRocketOf l
  · rfl
  · exact absurd (length_eq_two_of_isRocket hb) h

/-- A bomb (resolved) has exactly four cards before resolution as well. -/
theorem length_eq_four_of_isBomb {cards : List Card} {r : Option Nat}
    (h : isBombOf cards r = true) : cards.length = 4 := by
  unfold isBombOf at h
  rw [Bool.and_eq_true] at h
  rw [← effectiveCards_length cards r]
  exact beq_iff_eq.mp h.1

/-- A previous-play bomb has exactly four cards. -/
theorem length_eq_four_of_lastIsBomb {l : List Card} (h : lastIsBombOf l = true) :
    l.length = 4 := by
  unfold lastIsBombOf at h
  rw [Bool.and_eq_true] at h
  exact beq_iff_eq.mp h.1

/-- Unfolding of the validator in the following (non-lead) situation. -/
theorem isValidPlay_follow (cards lastCards : List Card) (r : Option Nat)
    (hc : cards ≠ []) (hl : lastCards ≠ []) :
    isValidPlay cards lastCards r =
      (if isRocketOf cards then true
       else if isRocketOf lastCards then false
       else if isBombOf cards r then
         (if !(lastIsBombOf lastCards) then true
          else decide (headVal lastCards < headVal (effectiveCards cards r)))
       else if lastIsBombOf lastCards then false
       else if cards.length != lastCards.length then false
       else allSameVal (effectiveCards cards r) &&
         decide (headVal lastCards < headVal (effectiveCards cards r))) := by
  have hc0 : (cards.length == 0) = false := by
    simp [List.length_eq_zero, hc]
  have hl0 : (lastCards.length == 0) = false := by
    simp [List.length_eq_zero, hl]
  simp only [isValidPlay, hc0, hl0, Bool.false_eq_true, if_false]

/-- Unfolding of the validator when leading a trick. -/
theorem isValidPlay_lead (cards : List Card) (r : Option Nat) (hc : cards ≠ []) :
    isValidPlay cards [] r =
      (isRocketOf cards || allSameVal (effectiveCards cards r)) := by
  have hc0 : (cards.length == 0) = false := by
    simp [List.length_eq_zero, hc]
  simp only [isValidPlay, hc0, Bool.false_eq_true, if_false, List.length_nil]
  rfl

/-- Permuting the proposed cards never changes the verdict. -/
theorem isValidPlay_perm_cards {cards cs : List Card} (lastCards : List Card)
    (r : Option Nat) (h : cards.Perm cs) :
    isValidPlay cards lastCards r = isValidPlay cs lastCards r := by
  have hlen : cards.length = cs.length := h.length_eq
  have heff : (effectiveCards cards r).Perm (effectiveCards cs r) := effectiveCards_perm r h
  have hU : allSameVal (effectiveCards cards r) = allSameVal (effectiveCards cs r) :=
    allSameVal_of_perm heff
  have hR : isRocketOf cards = isRocketOf cs := isRocketOf_of_perm h
  have hBlen : (effectiveCards cards r).length = (effectiveCards cs r).length :=
    heff.length_eq
  have hBomb : isBombOf cards r = isBombOf cs r := by
    unfold isBombOf
    rw [hBlen, hU]
  cases hval : allSameVal (effectiveCards cards r) with
  | true =>
    have hHead : headVal (effectiveCards cards r) = headVal (effectiveCards cs r) :=
      headVal_eq_of_perm_allSame heff hval
    simp only [isValidPlay, hlen, hR, hBomb, hU, hHead]
  | false =>
    have hu2 : allSameVal (effectiveCards cs r) = false := by
      rw [← hU]
      exact hval
    have hbombc : isBombOf cards r = false := by
      unfold isBombOf
      rw [hval, Bool.and_false]
    have hbombs : isBombOf cs r = false := by
      unfold isBombOf
      rw [hu2, Bool.and_false]
    simp only [isValidPlay, hlen, hR, hval, hu2, hbombc, hbombs, Bool.false_eq_true,
      if_false, Bool.or_false, Bool.false_and]

/-- Permuting the previous play does not change the verdict provided that play
is uniform in value or a rocket. Accepted plays without wildcards are of this
shape, but an accepted soft play is stored with its raw values and need not
be: the invariance genuinely requires this hypothesis. -/
theorem isValidPlay_perm_last {lastCards ls : List Card} (cards : List Card)
    (r : Option Nat) (h : lastCards.Perm ls)
    (hok : allSameVal lastCards = true ∨ isRocketOf lastCards = true) :
    isValidPlay cards lastCards r = isValidPlay cards ls r := by
  have hlen : lastCards.length = ls.length := h.length_eq
  have hR : isRocketOf lastCards = isRocketOf ls := isRocketOf_of_perm h
  have hB : lastIsBombOf lastCards = lastIsBombOf ls := lastIsBombOf_of_perm h
  rcases hok with hu | hr
  · have hHead : headVal lastCards = headVal ls := headVal_eq_of_perm_allSame h hu
    simp only [isValidPlay, hlen, hR, hB, hHead]
  · have hr2 : isRocketOf ls = true := by
      rw [← hR]
      exact hr
    have hl2 : (ls.length == 0) = false := by
      have : ls.length = 2 := length_eq_two_of_isRocket hr2
      simp [this]
    simp only [isValidPlay, hlen, hR, hB, hr2, hl2, Bool.false_eq_true, if_false, if_true]

/-- C5: the claim that reordering within `lastCards` never changes the verdict
is false: against the non-uniform previous play [3, 5] a pair of 4s is accepted
(it compares against the first card only), but against [5, 3] it is rejected.
Such non-uniform previous plays are reachable in real games: the soft triple
[3, 3, wildcard-of-value-5] is a valid lead, is stored with its raw values
(neither uniform nor a rocket), and permuting that stored play flips the
verdict on the follower [4, 4, 4]. -/
theorem C5_counterexample :
    (([mkCard 2 3 3, mkCard 3 5 5].Perm [mkCard 3 5 5, mkCard 2 3 3]) ∧
      isValidPlay [mkCard 0 4 4, mkCard 1 4 4] [mkCard 2 3 3, mkCard 3 5 5] none = true ∧
      isValidPlay [mkCard 0 4 4, mkCard 1 4 4] [mkCard 3 5 5, mkCard 2 3 3] none = false) ∧
    (isValidPlay [mkCard 0 3 3, mkCard 1 3 3, mkCard 2 5 5] [] (some 5) = true ∧
      allSameVal [mkCard 0 3 3, mkCard 1 3 3, mkCard 2 5 5] = false ∧
      isRocketOf [mkCard 0 3 3, mkCard 1 3 3, mkCard 2 5 5] = false ∧
      ([mkCard 0 3 3, mkCard 1 3 3, mkCard 2 5 5].Perm
        [mkCard 2 5 5, mkCard 0 3 3, mkCard 1 3 3]) ∧
      isValidPlay [mkCard 3 4 4, mkCard 4 4 4, mkCard 5 4 4]
        [mkCard 0 3 3, mkCard 1 3 3, mkCard 2 5 5] (some 5) = true ∧
      isValidPlay [mkCard 3 4 4, mkCard 4 4 4, mkCard 5 4 4]
        [mkCard 2 5 5, mkCard 0 3 3, mkCard 1 3 3] (some 5) = false) := by
  refine ⟨⟨List.Perm.swap _ _ _, by decide, by decide⟩,
    by decide, by decide, by decide, by decide, by decide, by decide⟩

/-- C5 (amended): the verdict of `isValidPlay` is invariant under reordering of
`cards`; it is invariant under reordering of `lastCards` whenever `lastCards`
is uniform in value or is a rocket. For non-uniform `lastCards` the verdict
can depend on order, and such previous plays are reachable: accepted soft
plays are stored with their raw, non-uniform values. -/
theorem C5_perm_invariance :
    (∀ (cards cs lastCards : List Card) (r : Option Nat),
      cards.Perm cs → isValidPlay cards lastCards r = isValidPlay cs lastCards r) ∧
    (∀ (cards lastCards ls : List Card) (r : Option Nat),
      lastCards.Perm ls →
      (allSameVal lastCards = true ∨ isRocketOf lastCards = true) →
      isValidPlay cards lastCards r = isValidPlay cards ls r) := by
  constructor
  · intro cards cs lastCards r h
    exact isValidPlay_perm_cards lastCards r h
  · intro cards lastCards ls r h hok
    exact isValidPlay_perm_last cards r h hok

/-- C5 witness: the amended invariance applied at a concrete permutation. -/
theorem C5_perm_invariance_witness :
    isValidPlay [mkCard 0 4 4, mkCard 1 4 4] [mkCard 2 3 3] none =
      isValidPlay [mkCard 1 4 4, mkCard 0 4 4] [mkCard 2 3 3] none :=
  C5_perm_invariance.1 [mkCard 0 4 4, mkCard 1 4 4] [mkCard 1 4 4, mkCard 0 4 4]
    [mkCard 2 3 3] none (List.Perm.swap _ _ _)

/-- Under active wildcard substitution every resolved card carries the shared
value of the non-wildcard cards. -/
theorem effectiveCards_values_of_subst {cards : List Card} {rk : Nat}
    (h1 : laizisOf cards (some rk) ≠ [])
    (h2 : normalsOf cards (some rk) ≠ [])
    (h3 : allSameVal (normalsOf cards (some rk)) = true) :
    ∀ x ∈ effectiveCards cards (some rk),
      x.value = headVal (normalsOf cards (some rk)) := by
  have hcond : 0 < (laizisOf cards (some rk)).length ∧
      0 < (normalsOf cards (some rk)).length :=
    ⟨List.length_pos.mpr h1, List.length_pos.mpr h2⟩
  intro x hx
  unfold effectiveCards at hx
  rw [if_pos hcond, if_pos h3] at hx
  rcases List.mem_map.mp hx with ⟨c, hc, hfc⟩
  by_cases hl : isLaiziCard (some rk) c = true
  · rw [if_pos hl] at hfc
    rw [← hfc]
  · rw [if_neg hl] at hfc
    have hnb : (!(isLaiziCard (some rk) c)) = true := by
      cases hb : isLaiziCard (some rk) c
      · rfl
      · exact absurd hb hl
    have hcn : c ∈ normalsOf cards (some rk) := List.mem_filter.mpr ⟨hc, hnb⟩
    rw [← hfc]
    exact value_eq_headVal_of_allSame h3 hcn

/-- C1: when a play holds at least one wildcard and at least one normal card
and the normal cards share one value, the wildcards become extra copies of
that value (explicit substitution map, uniformity, resolved head value, a
valid lead, and a bomb when four cards are played); and a play of wildcards
only is evaluated at the wildcards' own native values, i.e. exactly as with
no wildcard rank set. -/
theorem C1_wildcard_substitution :
    (∀ (cards : List Card) (rk : Nat),
      laizisOf cards (some rk) ≠ [] →
      normalsOf cards (some rk) ≠ [] →
      allSameVal (normalsOf cards (some rk)) = true →
      (effectiveCards cards (some rk) =
          cards.map (fun c =>
            if isLaiziCard (some rk) c then
              { c with value := headVal (normalsOf cards (some rk)) }
            else c) ∧
        allSameVal (effectiveCards cards (some rk)) = true ∧
        headVal (effectiveCards cards (some rk)) = headVal (normalsOf cards (some rk)) ∧
        isValidPlay cards [] (some rk) = true ∧
        (cards.length = 4 → isBombOf cards (some rk) = true))) ∧
    (∀ (cards lastCards : List Card) (rk : Nat),
      normalsOf cards (some rk) = [] →
      isValidPlay cards lastCards (some rk) = isValidPlay cards lastCards none) := by
  constructor
  · intro cards rk h1 h2 h3
    have hcond : 0 < (laizisOf cards (some rk)).length ∧
        0 < (normalsOf cards (some rk)).length :=
      ⟨List.length_pos.mpr h1, List.length_pos.mpr h2⟩
    have heq : effectiveCards cards (some rk) =
        cards.map (fun c =>
          if isLaiziCard (some rk) c then
            { c with value := headVal (normalsOf cards (some rk)) }
          else c) := by
      unfold effectiveCards
      rw [if_pos hcond, if_pos h3]
    have hvals := effectiveCards_values_of_subst h1 h2 h3
    have hsame : allSameVal (effectiveCards cards (some rk)) = true := by
      rw [allSameVal_iff]
      intro x hx y hy
      rw [hvals x hx, hvals y hy]
    have hcne : cards ≠ [] := by
      intro hc
      apply h2
      rw [hc]
      rfl
    have heffne : effectiveCards cards (some rk) ≠ [] := by
      intro he
      apply hcne
      have hlen := effectiveCards_length cards (some rk)
      rw [he] at hlen
      exact List.length_eq_zero.mp hlen.symm
    have hhead : headVal (effectiveCards cards (some rk)) =
        headVal (normalsOf cards (some rk)) := by
      cases hE : effectiveCards cards (some rk) with
      | nil => exact absurd hE heffne
      | cons c t =>
        have hc : c ∈ effectiveCards cards (some rk) := by
          rw [hE]
          exact List.mem_cons_self c t
        exact hvals c hc
    refine ⟨heq, hsame, hhead, ?_, ?_⟩
    · rw [isValidPlay_lead cards (some rk) hcne, hsame, Bool.or_true]
    · intro h4
      unfold isBombOf
      rw [hsame, Bool.and_true, effectiveCards_length, h4]
      rfl
  · intro cards lastCards rk h0
    have e1 : effectiveCards cards (some rk) = cards := by
      have hnc : ¬ (0 < (laizisOf cards (some rk)).length ∧
          0 < (normalsOf cards (some rk)).length) := by
        intro hcond
        rw [h0] at hcond
        simp at hcond
      unfold effectiveCards
      rw [if_neg hnc]
    have e2 : effectiveCards cards none = cards := by
      have hl : laizisOf cards none = [] := by
        simp [laizisOf, isLaiziCard]
      have hnc : ¬ (0 < (laizisOf cards none).length ∧
          0 < (normalsOf cards none).length) := by
        intro hcond
        rw [hl] at hcond
        simp at hcond
      unfold effectiveCards
      rw [if_neg hnc]
    simp only [isValidPlay, isBombOf, e1, e2]

/-- C1 witness: [3, 3, wildcard of rank 5] with wildcard rank 5 resolves to a
uniform triple of value 3 and is a valid lead. -/
theorem C1_wildcard_substitution_witness :
    isValidPlay [mkCard 0 3 3, mkCard 1 3 3, mkCard 2 5 5] [] (some 5) = true ∧
    headVal (effectiveCards [mkCard 0 3 3, mkCard 1 3 3, mkCard 2 5 5] (some 5)) = 3 := by
  have h := C1_wildcard_substitution.1 [mkCard 0 3 3, mkCard 1 3 3, mkCard 2 5 5] 5
    (by decide) (by decide) (by decide)
  refine ⟨h.2.2.2.1, ?_⟩
  rw [h.2.2.1]
  decide

/-- A rocket is accepted against any previous play (even another rocket). -/
theorem isValidPlay_rocket_true (cards lastCards : List Card) (r : Option Nat)
    (h : isRocketOf cards = true) : isValidPlay cards lastCards r = true := by
  have hlen : cards.length = 2 := length_eq_two_of_isRocket h
  have hcne : cards ≠ [] := by
    intro hc
    rw [hc] at hlen
    cases hlen
  by_cases hl : lastCards = []
  · rw [hl, isValidPlay_lead cards r hcne, h, Bool.true_or]
  · rw [isValidPlay_follow cards lastCards r hcne hl, h]
    simp

/-- No non-rocket is accepted against a rocket. -/
theorem isValidPlay_vs_rocket_false (cards lastCards : List Card) (r : Option Nat)
    (hlast : isRocketOf lastCards = true) (hcards : isRocketOf cards = false) :
    isValidPlay cards lastCards r = false := by
  have hlne : lastCards ≠ [] := by
    intro h0
    have h2 := length_eq_two_of_isRocket hlast
    rw [h0] at h2
    cases h2
  by_cases hc : cards = []
  · rw [hc]
    simp [isValidPlay]
  · rw [isValidPlay_follow cards lastCards r hc hlne, hcards, hlast]
    simp

/-- C2: a play of two cards both valued at least 16 (the rocket) is accepted
against every previous play; nothing that is not itself a rocket is accepted
against a rocket; and a pair containing a wildcard of native value below 16
is never treated as a rocket (the rocket test reads raw values), so it loses
to a rocket even when substitution would lift its value. -/
theorem C2_rocket_rule :
    (∀ (cards lastCards : List Card) (r : Option Nat),
      isRocketOf cards = true → isValidPlay cards lastCards r = true) ∧
    (∀ (cards lastCards : List Card) (r : Option Nat),
      isRocketOf lastCards = true → isRocketOf cards = false →
      isValidPlay cards lastCards r = false) ∧
    (∀ (c1 c2 : Card) (lastCards : List Card) (rk : Nat),
      c2.rank = rk → c2.value < 16 → isRocketOf lastCards = true →
      isValidPlay [c1, c2] lastCards (some rk) = false) := by
  refine ⟨fun cards lastCards r h => isValidPlay_rocket_true cards lastCards r h,
    fun cards lastCards r h1 h2 => isValidPlay_vs_rocket_false cards lastCards r h1 h2,
    ?_⟩
  intro c1 c2 lastCards rk hrk hv hlast
  apply isValidPlay_vs_rocket_false _ _ _ hlast
  unfold isRocketOf
  have hdec : decide (16 ≤ secondVal [c1, c2]) = false := by
    simp only [secondVal, decide_eq_false_iff_not]
    omega
  rw [hdec, Bool.and_false]

/-- C2 witness: the two jokers beat a pair of 2s. -/
theorem C2_rocket_rule_witness :
    isValidPlay [mkCard 0 16 16, mkCard 1 17 17]
      [mkCard 2 15 15, mkCard 3 15 15] none = true :=
  C2_rocket_rule.1 [mkCard 0 16 16, mkCard 1 17 17]
    [mkCard 2 15 15, mkCard 3 15 15] none (by decide)

/-- C3: a resolved four-of-a-kind beats every previous play that is neither a
rocket nor a bomb; against a bomb it wins exactly when its resolved value is
strictly greater; and without a bomb or rocket nothing beats a bomb. -/
theorem C3_bomb_rule :
    (∀ (cards lastCards : List Card) (r : Option Nat),
      isBombOf cards r = true → isRocketOf lastCards = false →
      lastIsBombOf lastCards = false → isValidPlay cards lastCards r = true) ∧
    (∀ (cards lastCards : List Card) (r : Option Nat),
      isBombOf cards r = true → lastIsBombOf lastCards = true →
      (isValidPlay cards lastCards r = true ↔
        headVal lastCards < headVal (effectiveCards cards r))) ∧
    (∀ (cards lastCards : List Card) (r : Option Nat),
      isBombOf cards r = false → isRocketOf cards = false →
      lastIsBombOf lastCards = true → isValidPlay cards lastCards r = false) := by
  refine ⟨?_, ?_, ?_⟩
  · intro cards lastCards r hb hlr hlb
    have h4 : cards.length = 4 := length_eq_four_of_isBomb hb
    have hcne : cards ≠ [] := by
      intro h0
      rw [h0] at h4
      cases h4
    have hrc : isRocketOf cards = false := by
      apply isRocketOf_false_of_length_ne
      rw [h4]
      decide
    have hsame : allSameVal (effectiveCards cards r) = true := by
      unfold isBombOf at hb
      rw [Bool.and_eq_true] at hb
      exact hb.2
    by_cases hl : lastCards = []
    · rw [hl, isValidPlay_lead cards r hcne, hsame, Bool.or_true]
    · rw [isValidPlay_follow cards lastCards r hcne hl, hrc, hlr, hb, hlb]
      simp
  · intro cards lastCards r hb hlbomb
    have h4 : cards.length = 4 := length_eq_four_of_isBomb hb
    have hl4 : lastCards.length = 4 := length_eq_four_of_lastIsBomb hlbomb
    have hcne : cards ≠ [] := by
      intro h0
      rw [h0] at h4
      cases h4
    have hlne : lastCards ≠ [] := by
      intro h0
      rw [h0] at hl4
      cases hl4
    have hrc : isRocketOf cards = false := by
      apply isRocketOf_false_of_length_ne
      rw [h4]
      decide
    have hrl : isRocketOf lastCards = false := by
      apply isRocketOf_false_of_length_ne
      rw [hl4]
      decide
    rw [isValidPlay_follow cards lastCards r hcne hlne, hrc, hrl, hb, hlbomb]
    simp
  · intro cards lastCards r hb hrc hlbomb
    have hl4 : lastCards.length = 4 := length_eq_four_of_lastIsBomb hlbomb
    have hlne : lastCards ≠ [] := by
      intro h0
      rw [h0] at hl4
      cases hl4
    have hrl : isRocketOf lastCards = false := by
      apply isRocketOf_false_of_length_ne
      rw [hl4]
      decide
    by_cases hc : cards = []
    · rw [hc]
      simp [isValidPlay]
    · rw [isValidPlay_follow cards lastCards r hc hlne, hrc, hrl, hb, hlbomb]
      simp

/-- C3 witness: a bomb of 5s beats a pair of 2s. -/
theorem C3_bomb_rule_witness :
    isValidPlay [mkCard 0 5 5, mkCard 1 5 5, mkCard 2 5 5, mkCard 3 5 5]
      [mkCard 4 15 15, mkCard 5 15 15] none = true :=
  C3_bomb_rule.1 [mkCard 0 5 5, mkCard 1 5 5, mkCard 2 5 5, mkCard 3 5 5]
    [mkCard 4 15 15, mkCard 5 15 15] none (by decide) (by decide) (by decide)

/-- C4: against a non-empty uniform previous play that is neither rocket nor
bomb, a non-rocket non-bomb proposal is accepted exactly when it matches the
length, is uniform after wildcard resolution, and strictly exceeds the
previous play's value. -/
theorem C4_follow_rule :
    ∀ (cards lastCards : List Card) (r : Option Nat),
      lastCards ≠ [] →
      allSameVal lastCards = true →
      isRocketOf lastCards = false →
      lastIsBombOf lastCards = false →
      isRocketOf cards = false →
      isBombOf cards r = false →
      (isValidPlay cards lastCards r = true ↔
        (cards.length = lastCards.length ∧
         allSameVal (effectiveCards cards r) = true ∧
         headVal lastCards < headVal (effectiveCards cards r))) := by
  intro cards lastCards r hlne hlu hlr hlb hcr hcb
  by_cases hc : cards = []
  · subst hc
    have hlpos : lastCards.length ≠ 0 := by
      simpa [List.length_eq_zero] using hlne
    constructor
    · intro h
      simp [isValidPlay] at h
    · rintro ⟨h1, _, _⟩
      exact absurd h1.symm hlpos
  · rw [isValidPlay_follow cards lastCards r hc hlne, hcr, hlr, hcb, hlb]
    simp only [Bool.false_eq_true, if_false]
    by_cases hlen : cards.length = lastCards.length
    · have hne : (cards.length != lastCards.length) = false := by
        simp [hlen]
      rw [hne]
      simp [hlen, Bool.and_eq_true]
    · have hne : (cards.length != lastCards.length) = true := by
        simp [hlen]
      rw [hne]
      simp [hlen]

/-- C4 witness: a pair of kings (value 13) is rejected against a pair of 2s
(value 15). -/
theorem C4_follow_rule_witness :
    isValidPlay [mkCard 0 13 13, mkCard 1 13 13]
      [mkCard 2 15 15, mkCard 3 15 15] none = false := by
  have h := C4_follow_rule [mkCard 0 13 13, mkCard 1 13 13]
    [mkCard 2 15 15, mkCard 3 15 15] none (by decide) (by decide) (by decide)
    (by decide) (by decide) (by decide)
  cases hb : isValidPlay [mkCard 0 13 13, mkCard 1 13 13]
      [mkCard 2 15 15, mkCard 3 15 15] none
  · rfl
  · exact absurd (h.mp hb) (by decide)

/-- Role of a seated player. -/
inductive PlayerRole where
  | Landlord
  | Peasant
deriving DecidableEq

/-- Phase of the game state machine. -/
inductive GamePhase where
  | Lobby
  | Dealing
  | Bidding
  | Playing
  | GameOver
deriving DecidableEq

/-- A seated player of the host state. -/
structure Player where
  id : String
  name : String
  hand : List Card
  role : PlayerRole
  ready : Bool
  beans : Int
  lastAction : Option String
  isBot : Bool
deriving DecidableEq

/-- Room configuration fixed at start. -/
structure GameConfig where
  enableLaizi : Bool
  isDedicated : Bool
deriving DecidableEq

/-- The host-authoritative game state. -/
structure GameState where
  phase : GamePhase
  players : List Player
  deck : List Card
  currentTurnIndex : Nat
  landlordId : Option String
  baseBid : Nat
  multiplier : Nat
  lastPlayedCards : List Card
  lastPlayerId : Option String
  kittyCards : List Card
  winnerId : Option String
  laiziRank : Option Nat
  config : GameConfig
deriving DecidableEq

/-- The previous play that the given player must beat: empty (a free lead)
when `lastPlayerId` is unset or is the player themselves, otherwise the stored
`lastPlayedCards` (the ternary of the source's `processPlay`). -/
def lastCardsFor (gs : GameState) (playerId : String) : List Card :=
  match gs.lastPlayerId with
  | some q => if q == playerId then [] else gs.lastPlayedCards
  | none => []

/-- Scoring and phase transition of `handleGameOver` in the source: the winner
is looked up among the final players, the stake is `baseBid * multiplier * 100`,
and every player's beans move by the role-dependent amount; ready flags clear,
phase becomes GameOver and `winnerId` is recorded. -/
def handleGameOver (gs : GameState) (winnerId : String) (finalPlayers : List Player) :
    GameState :=
  let winner := finalPlayers.find? (fun p => p.id == winnerId)
  let isLandlordWin :=
    match winner with
    | some w => w.role == PlayerRole.Landlord
    | none => false
  let score : Int := (gs.baseBid : Int) * (gs.multiplier : Int) * 100
  let updatedPlayers := finalPlayers.map (fun p =>
    let change : Int :=
      if isLandlordWin then
        (if p.role == PlayerRole.Landlord then score * 2 else -score)
      else
        (if p.role == PlayerRole.Landlord then (-score) * 2 else score)
    { p with beans := p.beans + change, ready := false })
  { gs with
      phase := GamePhase.GameOver
      players := updatedPlayers
      winnerId := some winnerId }

/-- The host's `processPlay`, returning `some` of the broadcast state on an
accepted action and `none` when the action is silently dropped (wrong seat,
failed validation) or the source would fault on a missing index. -/
def processPlay (gs : GameState) (playerId : String) (cards : List Card) :
    Option GameState :=
  match gs.players.findIdx? (fun p => p.id == playerId) with
  | none => none
  | some playerIdx =>
    if playerIdx ≠ gs.currentTurnIndex then none
    else
      match gs.players[playerIdx]? with
      | none => none
      | some player =>
        if 0 < cards.length ∧
            isValidPlay cards (lastCardsFor gs playerId) gs.laiziRank = false then
          none
        else
          let newHand :=
            player.hand.filter (fun c => !(cards.any (fun played => played.id == c.id)))
          let updatedPlayers := gs.players.set playerIdx
            { player with
                hand := newHand
                lastAction := some (if 0 < cards.length then "出牌" else "不出") }
          if newHand.length = 0 then
            some (handleGameOver gs playerId updatedPlayers)
          else
            let nextTurn := (gs.currentTurnIndex + 1) % 3
            match updatedPlayers[nextTurn]? with
            | none => none
            | some nextPlayer =>
              if 0 < cards.length then
                some { gs with
                        players := updatedPlayers
                        lastPlayedCards := cards
                        lastPlayerId := some playerId
                        currentTurnIndex := nextTurn }
              else if some nextPlayer.id = gs.lastPlayerId then
                some { gs with
                        players := updatedPlayers
                        lastPlayedCards := []
                        currentTurnIndex := nextTurn }
              else
                some { gs with
                        players := updatedPlayers
                        currentTurnIndex := nextTurn }

/-- C6: an ActionPlay from a sender who is not seated, or whose seat is not
the current turn, or whose non-empty selection fails the validator, is a
silent no-op: `processPlay` broadcasts nothing and leaves the state unchanged
(modelled by returning `none`). -/
theorem C6_silent_rejection :
    ∀ (gs : GameState) (playerId : String) (cards : List Card),
      (gs.players.findIdx? (fun p => p.id == playerId) = none →
        processPlay gs playerId cards = none) ∧
      (∀ i, gs.players.findIdx? (fun p => p.id == playerId) = some i →
        i ≠ gs.currentTurnIndex → processPlay gs playerId cards = none) ∧
      (cards ≠ [] →
        isValidPlay cards (lastCardsFor gs playerId) gs.laiziRank = false →
        processPlay gs playerId cards = none) := by
  intro gs playerId cards
  refine ⟨?_, ?_, ?_⟩
  · intro h
    simp [processPlay, h]
  · intro i h hne
    simp [processPlay, h, hne]
  · intro hne hval
    cases hidx : gs.players.findIdx? (fun p => p.id == playerId) with
    | none => simp [processPlay, hidx]
    | some i =>
      by_cases hi : i = gs.currentTurnIndex
      · subst hi
        cases hp : gs.players[gs.currentTurnIndex]? with
        | none => simp [processPlay, hidx, hp]
        | some player =>
          simp [processPlay, hidx, hp, hval, List.length_pos.mpr hne]
      · simp [processPlay, hidx, hi]

/-- The index found by `findIdx?` is in range, its element satisfies the
predicate, and every earlier element refutes it. -/
theorem findIdx?_spec {α : Type} {p : α → Bool} {l : List α} {i : Nat}
    (h : List.findIdx? p l = some i) :
    i < l.length ∧
    (∀ x, l[i]? = some x → p x = true) ∧
    (∀ j, j < i → ∀ y, l[j]? = some y → p y = false) := by
  rw [List.findIdx?_eq_some_iff_findIdx_eq] at h
  obtain ⟨hlen, hfi⟩ := h
  refine ⟨hlen, ?_, ?_⟩
  · intro x hx
    obtain ⟨hl2, hget⟩ := List.getElem?_eq_some.mp hx
    have hw : List.findIdx p l < l.length := by
      rw [hfi]
      exact hlen
    have hpe := @List.findIdx_getElem _ p l hw
    rw [← hget]
    have hieq : l[i] = l[List.findIdx p l] := by
      congr 1
      rw [hfi]
    rw [hieq]
    exact hpe
  · intro j hj y hy
    obtain ⟨hl2, hget⟩ := List.getElem?_eq_some.mp hy
    have hw : j < List.findIdx p l := by
      rw [hfi]
      exact hj
    have hpe := List.not_of_lt_findIdx hw
    rw [← hget]
    exact hpe

/-- Searching a list whose entries before position i refute the predicate,
after overwriting position i with a satisfying element, finds that element. -/
theorem find?_set_eq_some {α : Type} {p : α → Bool} {u : α} :
    ∀ {l : List α} {i : Nat}, i < l.length → p u = true →
    (∀ j, j < i → ∀ y, l[j]? = some y → p y = false) →
    (l.set i u).find? p = some u := by
  intro l
  induction l with
  | nil =>
    intro i hi
    exact absurd hi (Nat.not_lt_zero i)
  | cons x t ih =>
    intro i hi hu hbef
    cases i with
    | zero =>
      rw [List.set_cons_zero, List.find?_cons, hu]
    | succ k =>
      have hx : p x = false := hbef 0 (Nat.succ_pos k) x List.getElem?_cons_zero
      rw [List.set_cons_succ, List.find?_cons, hx]
      apply ih (Nat.lt_of_succ_lt_succ hi) hu
      intro j hj y hy
      exact hbef (j + 1) (Nat.succ_lt_succ hj) y (by rw [List.getElem?_cons_succ]; exact hy)

/-- Filtering preserves value uniformity. -/
theorem allSameVal_filter (l : List Card) (p : Card → Bool)
    (h : allSameVal l = true) : allSameVal (l.filter p) = true := by
  rw [allSameVal_iff] at h ⊢
  intro x hx y hy
  exact h x (List.mem_filter.mp hx).1 y (List.mem_filter.mp hy).1

/-- Wildcard resolution of an already uniform play stays uniform. -/
theorem allSame_effectiveCards_of_allSame {cards : List Card} (r : Option Nat)
    (h : allSameVal cards = true) : allSameVal (effectiveCards cards r) = true := by
  unfold effectiveCards
  by_cases h1 : 0 < (laizisOf cards r).length ∧ 0 < (normalsOf cards r).length
  · rw [if_pos h1]
    have hn : allSameVal (normalsOf cards r) = true := allSameVal_filter cards _ h
    rw [if_pos hn]
    have hnv : headVal (normalsOf cards r) = headVal cards := by
      have hne : normalsOf cards r ≠ [] := by
        intro h0
        rw [h0] at h1
        simp at h1
      cases hE : normalsOf cards r with
      | nil => exact absurd hE hne
      | cons n t =>
        have hmem : n ∈ normalsOf cards r := by
          rw [hE]
          exact List.mem_cons_self n t
        exact value_eq_headVal_of_allSame h (List.mem_filter.mp hmem).1
    rw [allSameVal_iff]
    intro x hx y hy
    rcases List.mem_map.mp hx with ⟨c, hc, hfc⟩
    rcases List.mem_map.mp hy with ⟨d, hd, hfd⟩
    have hvx : x.value = headVal cards := by
      by_cases hl : isLaiziCard r c = true
      · rw [if_pos hl] at hfc
        rw [← hfc]
        exact hnv
      · rw [if_neg hl] at hfc
        rw [← hfc]
        exact value_eq_headVal_of_allSame h hc
    have hvy : y.value = headVal cards := by
      by_cases hl : isLaiziCard r d = true
      · rw [if_pos hl] at hfd
        rw [← hfd]
        exact hnv
      · rw [if_neg hl] at hfd
        rw [← hfd]
        exact value_eq_headVal_of_allSame h hd
    rw [hvx, hvy]
  · rw [if_neg h1]
    exact h

/-- A sample player for concrete scenario states. -/
def wPlayer (pid : String) (hand : List Card) : Player :=
  { id := pid, name := pid, hand := hand, role := PlayerRole.Peasant, ready := true,
    beans := 100, lastAction := none, isBot := false }

/-- A fixed room configuration for concrete scenario states. -/
def wConfig : GameConfig := { enableLaizi := false, isDedicated := false }

/-- Concrete state where seat 0 (player A) must beat a stored pair of 2s. -/
def c6State : GameState :=
  { phase := GamePhase.Playing,
    players := [wPlayer "A" [mkCard 0 13 13], wPlayer "B" [mkCard 1 3 3],
                wPlayer "C" [mkCard 2 4 4]],
    deck := [], currentTurnIndex := 0, landlordId := some "A", baseBid := 1,
    multiplier := 1,
    lastPlayedCards := [mkCard 3 15 15, mkCard 4 15 15], lastPlayerId := some "B",
    kittyCards := [], winnerId := none, laiziRank := none, config := wConfig }

/-- C6 witness: a single king against a stored pair is silently dropped. -/
theorem C6_silent_rejection_witness :
    processPlay c6State "A" [mkCard 0 13 13] = none :=
  (C6_silent_rejection c6State "A" [mkCard 0 13 13]).2.2 (by decide) (by decide)

/-- Spec-side formula for the bean movement at game over: with stake s, a
landlord win moves the landlord by 2s and each peasant by -s; a peasant win
moves the landlord by -2s and each peasant by s. -/
def specBeanDelta (winnerRole pRole : PlayerRole) (stake : Int) : Int :=
  if winnerRole = PlayerRole.Landlord then
    (if pRole = PlayerRole.Landlord then 2 * stake else -stake)
  else
    (if pRole = PlayerRole.Landlord then -(2 * stake) else stake)

/-- Concrete Playing state: seat 2 (player C) is to act, player A (seat 0)
made the last non-empty play. -/
def c7State : GameState :=
  { phase := GamePhase.Playing,
    players := [wPlayer "A" [mkCard 0 3 3], wPlayer "B" [mkCard 1 4 4],
                wPlayer "C" [mkCard 2 5 5]],
    deck := [], currentTurnIndex := 2, landlordId := some "A", baseBid := 1,
    multiplier := 1,
    lastPlayedCards := [mkCard 3 7 7], lastPlayerId := some "A",
    kittyCards := [], winnerId := none, laiziRank := none, config := wConfig }

/-- C7 counterexample: when C passes and the turn returns to A (the last
player), the accepted state clears `lastPlayedCards` but KEEPS
`lastPlayerId = some "A"`; the claim that both fields are cleared is false. -/
theorem C7_counterexample :
    ((processPlay c7State "C" []).map (fun gs2 => (gs2.lastPlayedCards, gs2.lastPlayerId)) =
      some (([] : List Card), some "A")) ∧ (some "A" : Option String) ≠ none := by
  refine ⟨by decide, by decide⟩

/-- C7 (amended): when the current player passes and the advanced turn index
lands on the player who made the last non-empty play, `lastPlayedCards` is
cleared while `lastPlayerId` is left unchanged (it still names that player);
since the validator treats a play whose `lastPlayerId` equals the acting
player as a free lead, that player may then lead with any uniform set. -/
theorem C7_lead_reset :
    ∀ (gs : GameState) (pid : String) (player nextPlayer : Player),
      gs.players.length = 3 →
      gs.players.findIdx? (fun p => p.id == pid) = some gs.currentTurnIndex →
      gs.players[gs.currentTurnIndex]? = some player →
      player.hand ≠ [] →
      gs.players[(gs.currentTurnIndex + 1) % 3]? = some nextPlayer →
      gs.lastPlayerId = some nextPlayer.id →
      ∃ gs2, processPlay gs pid [] = some gs2 ∧
        gs2.lastPlayedCards = [] ∧
        gs2.lastPlayerId = gs.lastPlayerId ∧
        gs2.currentTurnIndex = (gs.currentTurnIndex + 1) % 3 ∧
        lastCardsFor gs2 nextPlayer.id = [] ∧
        (∀ (cs : List Card) (r : Option Nat), cs ≠ [] → allSameVal cs = true →
          isValidPlay cs (lastCardsFor gs2 nextPlayer.id) r = true) := by
  intro gs pid player nextPlayer hlen3 hidx hget hhand hnext hlast
  have hcti : gs.currentTurnIndex < 3 := by
    have hs := (findIdx?_spec hidx).1
    rw [hlen3] at hs
    exact hs
  have hneq : gs.currentTurnIndex ≠ (gs.currentTurnIndex + 1) % 3 := by omega
  have hne0 : ¬ (player.hand.length = 0) := by
    simpa [List.length_eq_zero] using hhand
  have hstep : processPlay gs pid [] =
      some { gs with
              players := gs.players.set gs.currentTurnIndex
                { player with hand := player.hand, lastAction := some "不出" },
              lastPlayedCards := [],
              currentTurnIndex := (gs.currentTurnIndex + 1) % 3 } := by
    unfold processPlay
    rw [hidx]
    dsimp only
    simp only [ne_eq, eq_self_iff_true, not_true_eq_false, if_false, List.length_nil,
      lt_self_iff_false, false_and, List.any_nil, Bool.not_false, List.filter_true]
    rw [hget]
    dsimp only
    rw [if_neg hne0, List.getElem?_set_ne hneq, hnext]
    dsimp only
    rw [if_pos hlast.symm]
  refine ⟨_, hstep, rfl, rfl, rfl, ?_, ?_⟩
  · show lastCardsFor _ nextPlayer.id = []
    unfold lastCardsFor
    dsimp only
    rw [hlast]
    simp
  · intro cs r hcs hu
    have hl : lastCardsFor { gs with
        players := gs.players.set gs.currentTurnIndex
          { player with hand := player.hand, lastAction := some "不出" },
        lastPlayedCards := [],
        currentTurnIndex := (gs.currentTurnIndex + 1) % 3 } nextPlayer.id = [] := by
      unfold lastCardsFor
      dsimp only
      rw [hlast]
      simp
    rw [hl, isValidPlay_lead cs r hcs, allSame_effectiveCards_of_allSame r hu, Bool.or_true]

/-- C7 witness: the amended lead-reset applied to the concrete state. -/
theorem C7_lead_reset_witness :
    ∃ gs2, processPlay c7State "C" [] = some gs2 ∧ gs2.lastPlayedCards = [] ∧
      gs2.lastPlayerId = c7State.lastPlayerId := by
  obtain ⟨gs2, h1, h2, h3, _⟩ := C7_lead_reset c7State "C" (wPlayer "C" [mkCard 2 5 5])
    (wPlayer "A" [mkCard 0 3 3]) (by decide) (by decide) (by decide) (by decide)
    (by decide) (by decide)
  exact ⟨gs2, h1, h2, h3⟩

/-- C8: when the acting player's accepted play empties their hand, the next
state is GameOver with them as winner, and with stake baseBid*multiplier*100
every seat's beans move by the role formula of the claim. -/
theorem C8_game_over_scoring :
    ∀ (gs : GameState) (pid : String) (cards : List Card) (player : Player),
      gs.players.findIdx? (fun p => p.id == pid) = some gs.currentTurnIndex →
      gs.players[gs.currentTurnIndex]? = some player →
      0 < cards.length →
      isValidPlay cards (lastCardsFor gs pid) gs.laiziRank = true →
      player.hand.filter (fun c => !(cards.any (fun played => played.id == c.id))) = [] →
      ∃ gs2, processPlay gs pid cards = some gs2 ∧
        gs2.phase = GamePhase.GameOver ∧
        gs2.winnerId = some pid ∧
        (∀ (j : Nat) (q : Player), gs.players[j]? = some q →
          ∃ q2, gs2.players[j]? = some q2 ∧ q2.role = q.role ∧
            q2.beans = q.beans +
              specBeanDelta player.role q.role
                ((gs.baseBid : Int) * (gs.multiplier : Int) * 100)) := by
  intro gs pid cards player hidx hget hclen hval hempty
  have hspec := findIdx?_spec hidx
  have hlt : gs.currentTurnIndex < gs.players.length := hspec.1
  have hpid : (player.id == pid) = true := hspec.2.1 player hget
  have hbefore := hspec.2.2
  have hguard : ¬ (0 < cards.length ∧
      isValidPlay cards (lastCardsFor gs pid) gs.laiziRank = false) := by
    intro hcontra
    rw [hval] at hcontra
    simp at hcontra
  have hstep : processPlay gs pid cards =
      some (handleGameOver gs pid (gs.players.set gs.currentTurnIndex
        { player with hand := [], lastAction := some "出牌" })) := by
    unfold processPlay
    rw [hidx]
    dsimp only
    simp only [ne_eq, eq_self_iff_true, not_true_eq_false, if_false]
    rw [hget]
    dsimp only
    rw [if_neg hguard, hempty, if_pos hclen]
    simp only [List.length_nil, eq_self_iff_true, if_true]
  have hfind : (gs.players.set gs.currentTurnIndex
        { player with hand := [], lastAction := some "出牌" }).find?
        (fun p => p.id == pid) =
      some { player with hand := [], lastAction := some "出牌" } :=
    find?_set_eq_some hlt hpid hbefore
  refine ⟨_, hstep, rfl, rfl, ?_⟩
  intro j q hq
  simp only [handleGameOver, hfind]
  rw [List.getElem?_map]
  by_cases hj : j = gs.currentTurnIndex
  · subst hj
    rw [List.getElem?_set_self hlt]
    have hqp : q = player := by
      rw [hget] at hq
      exact (Option.some.injEq _ _ ▸ hq).symm
    subst hqp
    refine ⟨_, rfl, rfl, ?_⟩
    dsimp only
    cases hrole : q.role <;> simp [specBeanDelta, hrole] <;> ring
  · rw [List.getElem?_set_ne (Ne.symm hj), hq]
    refine ⟨_, rfl, rfl, ?_⟩
    dsimp only
    cases hw : player.role <;> cases hr : q.role <;> simp [specBeanDelta, hw, hr] <;> ring

/-- Landlord seat used in the C8 witness. -/
def c8Landlord : Player :=
  { id := "L", name := "L", hand := [mkCard 0 3 3], role := PlayerRole.Landlord,
    ready := true, beans := 100, lastAction := none, isBot := false }

/-- Concrete Playing state where the landlord holds one card and leads. -/
def c8State : GameState :=
  { phase := GamePhase.Playing,
    players := [c8Landlord, wPlayer "B" [mkCard 1 4 4], wPlayer "C" [mkCard 2 5 5]],
    deck := [], currentTurnIndex := 0, landlordId := some "L", baseBid := 3,
    multiplier := 1,
    lastPlayedCards := [], lastPlayerId := none,
    kittyCards := [], winnerId := none, laiziRank := none, config := wConfig }

/-- C8 witness: the landlord plays the last card and the game ends. -/
theorem C8_game_over_scoring_witness :
    ∃ gs2, processPlay c8State "L" [mkCard 0 3 3] = some gs2 ∧
      gs2.phase = GamePhase.GameOver ∧ gs2.winnerId = some "L" := by
  obtain ⟨gs2, h1, h2, h3, _⟩ := C8_game_over_scoring c8State "L" [mkCard 0 3 3]
    c8Landlord (by decide) (by decide) (by decide) (by decide) (by decide)
  exact ⟨gs2, h1, h2, h3⟩

/-- The four suits iterated by `createDeck`, in source order. -/
def deckSuits : List Suit := [Suit.Hearts, Suit.Diamonds, Suit.Clubs, Suit.Spades]

/-- The thirteen normal ranks of `createDeck`: (rank, label, value), in the
source order 3,4,...,10,J,Q,K,A,2. -/
def rankSpecs : List (Nat × String × Nat) :=
  [(3, "3", 3), (4, "4", 4), (5, "5", 5), (6, "6", 6), (7, "7", 7), (8, "8", 8),
   (9, "9", 9), (10, "10", 10), (11, "J", 11), (12, "Q", 12), (13, "K", 13),
   (14, "A", 14), (15, "2", 15)]

/-- Deck construction of the source: 13 ranks by 4 suits with ids card-0 ..
card-51 taken rank-major (the source's idCounter), then the two jokers with
ids card-52 and card-53. -/
def createDeck : List Card :=
  (rankSpecs.enum.flatMap (fun rke =>
    deckSuits.enum.map (fun se =>
      { id := "card-" ++ toString (rke.1 * 4 + se.1),
        suit := se.2, rank := rke.2.1, label := rke.2.2.1, value := rke.2.2.2 }))) ++
  [{ id := "card-" ++ toString 52, suit := Suit.None, rank := 16,
     label := "Joker", value := 16 },
   { id := "card-" ++ toString 53, suit := Suit.None, rank := 17,
     label := "JOKER", value := 17 }]

/-- One Fisher-Yates step of the source: swap positions i and j (guarded so an
out-of-range index leaves the deck unchanged; the source only produces
in-range indices). -/
def swapAt (l : List Card) (i j : Nat) : List Card :=
  match l[i]?, l[j]? with
  | some a, some b => (l.set i b).set j a
  | _, _ => l

/-- The source's descending loop i = n-1, ..., 1, swapping i with js i. -/
def fyLoop (js : Nat → Nat) : Nat → List Card → List Card
  | 0, deck => deck
  | i + 1, deck => fyLoop js i (swapAt deck (i + 1) (js (i + 1)))

/-- `shuffleDeck` of the source, with the stream of random draws modelled as
the function js (the source uses js i = floor(random * (i+1))). -/
def shuffleDeck (js : Nat → Nat) (deck : List Card) : List Card :=
  fyLoop js (deck.length - 1) deck

/-- Replacing position k by x and moving the replaced element b to the front
permutes the original list. -/
theorem set_head_perm (t : List Card) :
    ∀ (k : Nat) (b x : Card), t[k]? = some b → (b :: t.set k x).Perm (x :: t) := by
  induction t with
  | nil =>
    intro k b x hb
    simp at hb
  | cons y s ih =>
    intro k b x hb
    cases k with
    | zero =>
      rw [List.getElem?_cons_zero] at hb
      injection hb with hb
      subst hb
      rw [List.set_cons_zero]
      exact List.Perm.swap x y s
    | succ m =>
      rw [List.getElem?_cons_succ] at hb
      rw [List.set_cons_succ]
      have h1 : (b :: y :: s.set m x).Perm (y :: b :: s.set m x) := List.Perm.swap y b _
      have h2 : (y :: b :: s.set m x).Perm (y :: x :: s) := (ih m b x hb).cons y
      have h3 : (y :: x :: s).Perm (x :: y :: s) := List.Perm.swap x y s
      exact (h1.trans h2).trans h3

/-- Swapping two in-range positions permutes the list. -/
theorem set_set_perm (l : List Card) :
    ∀ (i j : Nat) (a b : Card), l[i]? = some a → l[j]? = some b →
      ((l.set i b).set j a).Perm l := by
  induction l with
  | nil =>
    intro i j a b ha
    simp at ha
  | cons x t ih =>
    intro i j a b ha hb
    cases i with
    | zero =>
      rw [List.getElem?_cons_zero] at ha
      injection ha with ha
      subst ha
      cases j with
      | zero =>
        rw [List.getElem?_cons_zero] at hb
        injection hb with hb
        subst hb
        rw [List.set_cons_zero, List.set_cons_zero]
      | succ k =>
        rw [List.getElem?_cons_succ] at hb
        rw [List.set_cons_zero, List.set_cons_succ]
        exact set_head_perm t k b x hb
    | succ m =>
      rw [List.getElem?_cons_succ] at ha
      cases j with
      | zero =>
        rw [List.getElem?_cons_zero] at hb
        injection hb with hb
        subst hb
        rw [List.set_cons_succ, List.set_cons_zero]
        exact set_head_perm t m a x ha
      | succ k =>
        rw [List.getElem?_cons_succ] at hb
        rw [List.set_cons_succ, List.set_cons_succ]
        exact (ih m k a b ha hb).cons x

/-- A Fisher-Yates step permutes the deck. -/
theorem swapAt_perm (l : List Card) (i j : Nat) : (swapAt l i j).Perm l := by
  unfold swapAt
  cases ha : l[i]? with
  | none => exact List.Perm.refl l
  | some a =>
    cases hb : l[j]? with
    | none => exact List.Perm.refl l
    | some b => exact set_set_perm l i j a b ha hb

/-- The whole Fisher-Yates loop permutes the deck. -/
theorem fyLoop_perm (js : Nat → Nat) :
    ∀ (i : Nat) (deck : List Card), (fyLoop js i deck).Perm deck := by
  intro i
  induction i with
  | zero => intro deck; exact List.Perm.refl deck
  | succ k ih =>
    intro deck
    exact (ih (swapAt deck (k + 1) (js (k + 1)))).trans (swapAt_perm deck (k + 1) (js (k + 1)))

/-- C9: `createDeck` has exactly 54 cards, one card of each of the 13 normal
ranks (rank = value, 3..15) in each of the 4 suits, exactly one joker of value
16 and one of value 17, all ids pairwise distinct; and for every random
stream, `shuffleDeck` returns a permutation of its input, so any shuffle of
`createDeck` carries exactly the 54-card reference multiset. -/
theorem C9_deck_integrity :
    createDeck.length = 54 ∧
    (∀ rk ∈ List.range' 3 13, ∀ s ∈ deckSuits,
      (createDeck.filter (fun c =>
        (c.rank == rk) && (c.value == rk) && (decide (c.suit = s)))).length = 1) ∧
    (createDeck.filter (fun c => c.value == 16)).length = 1 ∧
    (createDeck.filter (fun c => c.value == 17)).length = 1 ∧
    (createDeck.map (fun c => c.id)).Nodup ∧
    (∀ (js : Nat → Nat) (deck : List Card), (shuffleDeck js deck).Perm deck) ∧
    (∀ (js : Nat → Nat), (shuffleDeck js createDeck).Perm createDeck) := by
  refine ⟨by decide, by decide, by decide, by decide, by decide, ?_, ?_⟩
  · intro js deck
    exact fyLoop_perm js (deck.length - 1) deck
  · intro js
    exact fyLoop_perm js (createDeck.length - 1) createDeck

/-- C9 witness: the per-rank-per-suit count instantiated at rank 3 of hearts. -/
theorem C9_deck_integrity_witness :
    (createDeck.filter (fun c =>
      (c.rank == 3) && (c.value == 3) && (decide (c.suit = Suit.Hearts)))).length = 1 :=
  C9_deck_integrity.2.1 3 (by decide) Suit.Hearts (by decide)

/-- A junk card standing for the JS `undefined` that indexing an empty sorted
hand produces in the source's leading branch. -/
def undefinedCard : Card :=
  { id := "undefined", suit := Suit.None, rank := 0, label := "", value := 0 }

/-- Ascending-by-value insertion (model of the sort in `getBotMove`). -/
def insertByValue (c : Card) : List Card → List Card
  | [] => [c]
  | x :: t => if c.value ≤ x.value then c :: x :: t else x :: insertByValue c t

/-- Ascending-by-value insertion sort of a hand. -/
def sortByValue : List Card → List Card
  | [] => []
  | c :: t => insertByValue c (sortByValue t)

/-- The group of hand cards of one value, in hand order (the source's
groups[v] built by `groupCards`). -/
def groupCards (hand : List Card) (v : Nat) : List Card :=
  hand.filter (fun c => c.value == v)

/-- Ascending insertion into a list of naturals. -/
def insertNat (n : Nat) : List Nat → List Nat
  | [] => [n]
  | x :: t => if n ≤ x then n :: x :: t else x :: insertNat n t

/-- Ascending insertion sort of a list of naturals. -/
def sortNats : List Nat → List Nat
  | [] => []
  | n :: t => insertNat n (sortNats t)

/-- The distinct card values present in the hand, ascending (the source's
Object.keys(groups).map(Number).sort((a,b) => a-b)). -/
def sortedValues (hand : List Card) : List Nat :=
  sortNats ((hand.map (fun c => c.value)).dedup)

/-- Step 3 of `getBotMove`: the lowest value strictly above the previous
play's with a group at least as long, tried only for a uniform non-bomb
previous play. -/
def botBeat (hand lastPlayed : List Card) : Option Nat :=
  if allSameVal lastPlayed && !(lastIsBombOf lastPlayed) then
    (sortedValues hand).find? (fun v =>
      decide (headVal lastPlayed < v) &&
      decide (lastPlayed.length ≤ (groupCards hand v).length))
  else none

/-- Step 4 of `getBotMove`: the lowest four-card group usable as a bomb (any
bomb against a non-bomb; a strictly greater one against a bomb). -/
def botBomb (hand lastPlayed : List Card) : Option Nat :=
  (sortedValues hand).find? (fun v =>
    ((groupCards hand v).length == 4) &&
    (!(lastIsBombOf lastPlayed) || decide (headVal lastPlayed < v)))

/-- The bot policy `getBotMove` of the source: lead with the lowest single;
pass on a rocket; otherwise try to beat a uniform non-bomb group, then a
bomb, then the rocket, then pass. The wildcard rank is ignored. -/
def getBotMove (hand lastPlayed : List Card) (laiziRank : Option Nat) : List Card :=
  if lastPlayed.length == 0 then
    [(sortByValue hand).headD undefinedCard]
  else if isRocketOf lastPlayed then []
  else
    match botBeat hand lastPlayed with
    | some v => (groupCards hand v).take lastPlayed.length
    | none =>
      match botBomb hand lastPlayed with
      | some v => groupCards hand v
      | none =>
        match hand.find? (fun c => c.value == 16), hand.find? (fun c => c.value == 17) with
        | some sj, some bj => [sj, bj]
        | _, _ => []

/-- Inserting an element permutes consing it. -/
theorem insertByValue_perm (c : Card) (t : List Card) :
    (insertByValue c t).Perm (c :: t) := by
  induction t with
  | nil => exact List.Perm.refl _
  | cons x s ih =>
    unfold insertByValue
    by_cases h : c.value ≤ x.value
    · rw [if_pos h]
    · rw [if_neg h]
      exact (ih.cons x).trans (List.Perm.swap c x s)

/-- The insertion sort of a hand permutes the hand. -/
theorem sortByValue_perm (l : List Card) : (sortByValue l).Perm l := by
  induction l with
  | nil => exact List.Perm.refl _
  | cons c t ih =>
    exact (insertByValue_perm c (sortByValue t)).trans (ih.cons c)

/-- The lowest card of a non-empty sorted hand belongs to the hand. -/
theorem head_sortByValue_mem {hand : List Card} (h : hand ≠ []) :
    (sortByValue hand).headD undefinedCard ∈ hand := by
  have hp := sortByValue_perm hand
  cases hE : sortByValue hand with
  | nil =>
    have hnil : hand = [] := by
      have hlen := hp.length_eq
      rw [hE] at hlen
      exact List.length_eq_zero.mp hlen.symm
    exact absurd hnil h
  | cons c t =>
    have hc : c ∈ sortByValue hand := by
      rw [hE]
      exact List.mem_cons_self c t
    exact hp.mem_iff.mp hc

/-- C10: for every non-empty hand, `getBotMove` returns a sub-multiset of the
hand (no card is used more often than held), with the empty list as a pass;
and the non-empty-hand precondition is essential: leading from an empty hand
yields a junk singleton that is not a sub-multiset of the empty hand. -/
theorem C10_bot_submultiset :
    (∀ (hand lastPlayed : List Card) (r : Option Nat),
      hand ≠ [] → (getBotMove hand lastPlayed r).Subperm hand) ∧
    ¬ (getBotMove [] [] none).Subperm [] := by
  constructor
  · intro hand lastPlayed r hne
    unfold getBotMove
    by_cases hl : (lastPlayed.length == 0) = true
    · rw [if_pos hl]
      exact List.singleton_subperm_iff.mpr (head_sortByValue_mem hne)
    · rw [if_neg hl]
      by_cases hr : isRocketOf lastPlayed = true
      · rw [if_pos hr]
        exact List.nil_subperm
      · rw [if_neg hr]
        cases hbeat : botBeat hand lastPlayed with
        | some v =>
          exact ((List.take_sublist _ _).trans (List.filter_sublist hand)).subperm
        | none =>
          cases hbomb : botBomb hand lastPlayed with
          | some v => exact (List.filter_sublist hand).subperm
          | none =>
            cases hsj : hand.find? (fun c => c.value == 16) with
            | none => exact List.nil_subperm
            | some sj =>
              cases hbj : hand.find? (fun c => c.value == 17) with
              | none => exact List.nil_subperm
              | some bj =>
                have hsv : sj.value = 16 := by
                  have h1 := List.find?_some hsj
                  simpa using h1
                have hbv : bj.value = 17 := by
                  have h1 := List.find?_some hbj
                  simpa using h1
                have hsm : sj ∈ hand := List.mem_of_find?_eq_some hsj
                have hbm : bj ∈ hand := List.mem_of_find?_eq_some hbj
                have hsb : sj ≠ bj := by
                  intro he
                  rw [he, hbv] at hsv
                  cases hsv
                apply List.Nodup.subperm
                · simp [List.nodup_cons, hsb]
                · intro a ha
                  rcases List.mem_cons.mp ha with h1 | h1
                  · rw [h1]
                    exact hsm
                  · rw [List.mem_singleton.mp h1]
                    exact hbm
  · intro hcon
    have hlen := hcon.length_le
    simp [getBotMove] at hlen

/-- C10 witness: leading from a one-card hand plays that card. -/
theorem C10_bot_submultiset_witness :
    (getBotMove [mkCard 0 3 3] [] none).Subperm [mkCard 0 3 3] :=
  C10_bot_submultiset.1 [mkCard 0 3 3] [] none (by decide)
